import Mathlib

/-!
Shallow embedding of the plainly browser extension's content-script core
(`dom-translator.ts`: `DomTranslator` and `TranslationCache`;
`text-extractor.ts`: language detection) together with proofs about it.

Strings are modelled as `List Char`; DOM text nodes are modelled by
identifiers (`Nat`) mapped to their current text content and an
attachment flag (`parentNode` non-null); time (`Date.now()`) is an
explicit `Int` parameter threaded through the cache operations.
-/

set_option autoImplicit false

namespace Plainly

/-- JS strings, modelled as lists of characters. -/
abbrev Str := List Char

/-! ### Whitespace, `trim`, and `replaceNodeText` -/

/-- The JS whitespace class (`\s`, also used by `String.prototype.trim`):
ECMAScript WhiteSpace (TAB, VT, FF, SP, NBSP, ZWNBSP and the Unicode
space separators U+1680, U+2000\u2013U+200A, U+202F, U+205F, U+3000) together
with the LineTerminators (LF, CR, LS U+2028, PS U+2029). -/
def isJsWs (c : Char) : Bool :=
  c = ' ' || c = '\t' || c = '\n' || c = '\r' || c = '\x0b' || c = '\x0c' ||
  c = '\u00A0' || c = '\u1680' ||
  ('\u2000' ≤ c && c ≤ '\u200A') ||
  c = '\u2028' || c = '\u2029' || c = '\u202F' || c = '\u205F' ||
  c = '\u3000' || c = '\uFEFF'

/-- `s.match(/^\s*/)[0]` — the maximal run of leading whitespace. -/
def leadWs (s : Str) : Str := s.takeWhile isJsWs

/-- `s.match(/\s*$/)[0]` — the maximal run of trailing whitespace. -/
def trailWs (s : Str) : Str := (s.reverse.takeWhile isJsWs).reverse

/-- `s.trim()`. -/
def trimStr (s : Str) : Str :=
  ((s.dropWhile isJsWs).reverse.dropWhile isJsWs).reverse

/-! ### The DOM model and `DomTranslator` -/

/-- A snapshot of the live DOM: each text node (identified by a `Nat`)
has a current text content, and is or is not attached (`parentNode`). -/
structure Dom where
  text : Nat → Str
  attached : Nat → Bool

/-- `node.textContent = s` on one node. -/
def Dom.setText (d : Dom) (n : Nat) (s : Str) : Dom :=
  { d with text := fun m => if m = n then s else d.text m }

/-- `TextNodeInfo` from `text-extractor.ts` (`parentElement` omitted:
attachment lives in `Dom`). -/
structure TextNodeInfo where
  node : Nat
  originalText : Str
deriving DecidableEq

/-- `TranslatedText` from the shared types. -/
structure TranslatedText where
  original : Str
  translated : Str
deriving DecidableEq

/-- `TranslationRecord` — one entry of the `DomTranslator` undo log. -/
structure TranslationRecord where
  node : Nat
  original : Str
  translated : Str
deriving DecidableEq

/-- The private mutable fields of `DomTranslator`. -/
structure TranslatorState where
  translations : List TranslationRecord
  isTranslated : Bool
deriving DecidableEq

namespace DomTranslator

/-- `DomTranslator.replaceNodeText(node, newText)` acting on the node's
current content: keep the live leading/trailing whitespace, swap the core. -/
def replaceNodeText (current newText : Str) : Str :=
  leadWs current ++ newText ++ trailWs current

/-- One iteration of the `applyTranslations` loop: skip a falsy entry
(`!translation`) and skip no-op pairs (`translation.original ===
translation.translated`), otherwise push an undo record and rewrite the
node's text. -/
def applyStep (acc : Dom × TranslatorState)
    (p : TextNodeInfo × Option TranslatedText) : Dom × TranslatorState :=
  match p.2 with
  | none => acc
  | some tr =>
    if tr.original = tr.translated then acc
    else
      (acc.1.setText p.1.node (replaceNodeText (acc.1.text p.1.node) tr.translated),
       { acc.2 with
           translations :=
             acc.2.translations ++ [⟨p.1.node, p.1.originalText, tr.translated⟩] })

/-- `DomTranslator.applyTranslations(textNodes, translatedTexts)`:
length-mismatched batches are ignored; otherwise the loop runs and the
`isTranslated` flag is set afterwards. -/
def applyTranslations (dom : Dom) (st : TranslatorState)
    (textNodes : List TextNodeInfo) (translatedTexts : List (Option TranslatedText)) :
    Dom × TranslatorState :=
  if textNodes.length = translatedTexts.length then
    let r := (textNodes.zip translatedTexts).foldl applyStep (dom, st)
    (r.1, { r.2 with isTranslated := true })
  else (dom, st)

/-- One iteration of the `restoreOriginal` loop: restore a record's node
only if it is still attached. -/
def restoreStep (d : Dom) (r : TranslationRecord) : Dom :=
  if d.attached r.node then
    d.setText r.node (replaceNodeText (d.text r.node) r.original)
  else d

/-- `DomTranslator.restoreOriginal()`: replay the undo log in order,
then empty it and reset the flag; a no-op when not translated. -/
def restoreOriginal (x : Dom × TranslatorState) : Dom × TranslatorState :=
  if x.2.isTranslated then
    (x.2.translations.foldl restoreStep x.1, ⟨[], false⟩)
  else x

/-- `DomTranslator.clear()`. -/
def clear (_st : TranslatorState) : TranslatorState := ⟨[], false⟩

end DomTranslator

/-! ### `TranslationCache` -/

/-- `CacheEntry` from `translation-cache.ts`; `timestamp` is a
`Date.now()` value. -/
structure CacheEntry where
  translated : Str
  timestamp : Int
deriving DecidableEq

/-- The JS `Map<string, CacheEntry>` backing the cache, modelled as an
insertion-ordered association list with unique keys. -/
abbrev Cache := List (Str × CacheEntry)

/-- `Map.prototype.get`. -/
def alGet (k : Str) : Cache → Option CacheEntry
  | [] => none
  | (k1, e) :: r => if k1 = k then some e else alGet k r

/-- `Map.prototype.set`: overwrite in place (insertion order kept) if the
key is present, else append. -/
def alSet (k : Str) (v : CacheEntry) : Cache → Cache
  | [] => [(k, v)]
  | (k1, e) :: r => if k1 = k then (k, v) :: r else (k1, e) :: alSet k v r

/-- `Map.prototype.delete`. -/
def alDel (k : Str) : Cache → Cache
  | [] => []
  | (k1, e) :: r => if k1 = k then r else (k1, e) :: alDel k r

namespace TranslationCache

/-- `maxSize` field. -/
def maxSize : Nat := 1000

/-- `ttl` field: 24 hours in milliseconds. -/
def ttl : Int := 24 * 60 * 60 * 1000

/-- `generateKey(text, sourceLang, targetLang)` =
`` `${sourceLang}:${targetLang}:${text}` ``. -/
def generateKey (text sourceLang targetLang : Str) : Str :=
  sourceLang ++ ':' :: (targetLang ++ ':' :: text)

/-- `TranslationCache.get(text, sourceLang, targetLang)` at time `now`:
returns the hit (or `none`) together with the cache after the read
(lazy TTL eviction happens here). -/
def get (c : Cache) (text sourceLang targetLang : Str) (now : Int) :
    Option Str × Cache :=
  let key := generateKey text sourceLang targetLang
  match alGet key c with
  | none => (none, c)
  | some entry =>
    if ttl < now - entry.timestamp then (none, alDel key c)
    else (some entry.translated, c)

/-- The scan inside `evictOldest`: fold the entries carrying
`(oldestKey, oldestTime)`, where `none` stands for `null` / `Infinity`. -/
def scanStep (acc : Option Str × Option Int) (p : Str × CacheEntry) :
    Option Str × Option Int :=
  match acc.2 with
  | none => (some p.1, some p.2.timestamp)
  | some t => if p.2.timestamp < t then (some p.1, some p.2.timestamp) else acc

/-- `evictOldest()`: delete the first entry holding the minimal
timestamp; the JS guard `if (oldestKey)` also rejects the empty string. -/
def evictOldest (c : Cache) : Cache :=
  match (c.foldl scanStep (none, none)).1 with
  | none => c
  | some k => if k = [] then c else alDel k c

/-- `TranslationCache.set(text, translated, sourceLang, targetLang)` at
time `now`: evict first when at capacity, then insert or overwrite. -/
def set (c : Cache) (text translated sourceLang targetLang : Str) (now : Int) :
    Cache :=
  let c1 := if maxSize ≤ c.length then evictOldest c else c
  alSet (generateKey text sourceLang targetLang) ⟨translated, now⟩ c1

/-- The indexed `forEach` loop of `getMultiple`, starting at index `i`:
returns (cached pairs, uncached pairs, cache after all the reads).
A hit is only counted when the returned string is truthy (non-empty). -/
def getMultipleAux (sourceLang targetLang : Str) (now : Int) :
    Cache → List Str → Nat → List (Nat × Str) × List (Nat × Str) × Cache
  | c, [], _ => ([], [], c)
  | c, t :: ts, i =>
    let r := get c t sourceLang targetLang now
    let rest := getMultipleAux sourceLang targetLang now r.2 ts (i + 1)
    match r.1 with
    | some v =>
      if v = [] then (rest.1, (i, t) :: rest.2.1, rest.2.2)
      else ((i, v) :: rest.1, rest.2.1, rest.2.2)
    | none => (rest.1, (i, t) :: rest.2.1, rest.2.2)

/-- `TranslationCache.getMultiple(texts, sourceLang, targetLang)` at time
`now`. -/
def getMultiple (c : Cache) (texts : List Str) (sourceLang targetLang : Str)
    (now : Int) : List (Nat × Str) × List (Nat × Str) × Cache :=
  getMultipleAux sourceLang targetLang now c texts 0

end TranslationCache

/-- The key/entry pair `set` produces for one `(text, translated,
timestamp)` item — used to describe cache states built by `set`. -/
def mkCacheItem (src tgt : Str) (it : Str × Str × Int) : Str × CacheEntry :=
  (TranslationCache.generateKey it.1 src tgt, ⟨it.2.1, it.2.2⟩)

/-! ### `TextExtractor` language detection -/

/-- The three outcomes of `detectLanguage`. -/
inductive Lang
  | ko
  | en
  | mixed
deriving DecidableEq

/-- The `LanguageCode` union from the shared types. -/
inductive LanguageCode
  | ko
  | en
deriving DecidableEq

/-- The value a `LanguageCode` compares equal to in
`detected === sourceLang`. -/
def LanguageCode.toLang : LanguageCode → Lang
  | .ko => .ko
  | .en => .en

/-- The character class `[가-힣]`. -/
def isHangul (c : Char) : Bool := '가' ≤ c && c ≤ '힣'

/-- The character class `[a-zA-Z]`. -/
def isLatin (c : Char) : Bool := ('a' ≤ c && c ≤ 'z') || ('A' ≤ c && c ≤ 'Z')

namespace TextExtractor

/-- `text.match(/[가-힣]/g).length`. -/
def koreanChars (text : Str) : Nat := text.countP isHangul

/-- `text.match(/[a-zA-Z]/g).length`. -/
def englishChars (text : Str) : Nat := text.countP isLatin

/-- `koreanChars + englishChars`. -/
def totalChars (text : Str) : Nat := koreanChars text + englishChars text

/-- The Hangul ratio `koreanChars / total`, as an exact rational. -/
def koreanRatio (text : Str) : ℚ := (koreanChars text : ℚ) / (totalChars text : ℚ)

/-- `TextExtractor.detectLanguage(text)`. -/
def detectLanguage (text : Str) : Lang :=
  if totalChars text = 0 then .mixed
  else if 7 / 10 < koreanRatio text then .ko
  else if koreanRatio text < 3 / 10 then .en
  else .mixed

/-- `TextExtractor.isSourceLanguage(text, sourceLang)`. -/
def isSourceLanguage (text : Str) (sourceLang : LanguageCode) : Bool :=
  let detected := detectLanguage text
  if detected = Lang.mixed then true
  else detected = sourceLang.toLang

end TextExtractor

/-! ### Concrete inputs used by counterexamples and witnesses -/

/-- A one-node DOM whose node 0 holds `"ab"` and is attached. -/
def domAB : Dom := ⟨fun _ => ['a', 'b'], fun _ => true⟩

/-- A one-node DOM whose node 0 holds `" ab "` and is attached. -/
def domPadded : Dom := ⟨fun _ => [' ', 'a', 'b', ' '], fun _ => true⟩

/-- The initial `DomTranslator` state. -/
def st0 : TranslatorState := ⟨[], false⟩

/-- Source-language tag used in cache witnesses. -/
def wSrc : Str := ['e', 'n']

/-- Target-language tag used in cache witnesses. -/
def wTgt : Str := ['k', 'o']

/-- 1001 inserts with pairwise distinct texts (`'a'` repeated `i` times)
and strictly increasing timestamps. -/
def wItems : List (Str × Str × Int) :=
  (List.range (TranslationCache.maxSize + 1)).map
    (fun i => (List.replicate i 'a', ['v'], (i : Int)))

/-- The cache obtained by folding `set` over `wItems` from empty. -/
def wFinal : Cache :=
  wItems.foldl (fun c it => TranslationCache.set c it.1 it.2.1 wSrc wTgt it.2.2) []

/-- A one-entry cache holding an ordinary entry inserted at time 0. -/
def wCacheHit : Cache :=
  [(TranslationCache.generateKey ['h', 'i'] wSrc wTgt, ⟨['a'], 0⟩)]

/-- A one-entry cache whose stored translation is the empty string. -/
def wCacheEmptyVal : Cache :=
  [(TranslationCache.generateKey ['h', 'i'] wSrc wTgt, ⟨[], 0⟩)]

/-! ## Whitespace lemmas -/

theorem takeWhile_append_of_all {l m : Str} (h : ∀ c ∈ l, isJsWs c = true) :
    (l ++ m).takeWhile isJsWs = l ++ m.takeWhile isJsWs := by
  induction l with
  | nil => simp
  | cons a t ih =>
    have ha : isJsWs a = true := h a (List.mem_cons_self a t)
    simp [List.takeWhile_cons, ha, ih (fun c hc => h c (List.mem_cons_of_mem a hc))]

theorem takeWhile_eq_nil_of_head {l : Str}
    (h : ∀ c, l.head? = some c → isJsWs c = false) :
    l.takeWhile isJsWs = [] := by
  cases l with
  | nil => rfl
  | cons a t => simp [List.takeWhile_cons, h a rfl]

theorem head?_dropWhile_ws {l : Str} {c : Char}
    (h : (l.dropWhile isJsWs).head? = some c) : isJsWs c = false := by
  induction l with
  | nil => simp [List.dropWhile] at h
  | cons a t ih =>
    rw [List.dropWhile_cons] at h
    by_cases ha : isJsWs a = true
    · rw [if_pos ha] at h
      exact ih h
    · rw [if_neg ha] at h
      obtain rfl : a = c := by simpa using h
      exact Bool.eq_false_iff.mpr ha

theorem leadWs_of_clean {L core T : Str} (hL : ∀ c ∈ L, isJsWs c = true)
    (hh : ∀ c, core.head? = some c → isJsWs c = false) (hne : core ≠ []) :
    leadWs (L ++ core ++ T) = L := by
  unfold leadWs
  rw [List.append_assoc, takeWhile_append_of_all hL]
  have h0 : (core ++ T).takeWhile isJsWs = [] := by
    apply takeWhile_eq_nil_of_head
    intro c hc
    cases core with
    | nil => exact absurd rfl hne
    | cons a t =>
      obtain rfl : a = c := by simpa using hc
      exact hh a rfl
  simp [h0]

theorem trailWs_of_clean {L core T : Str} (hT : ∀ c ∈ T, isJsWs c = true)
    (hl : ∀ c, core.getLast? = some c → isJsWs c = false) (hne : core ≠ []) :
    trailWs (L ++ core ++ T) = T := by
  have h1 : (T.reverse ++ (core.reverse ++ L.reverse)).takeWhile isJsWs = T.reverse := by
    rw [takeWhile_append_of_all (fun c hc => hT c (by simpa using hc))]
    have h0 : (core.reverse ++ L.reverse).takeWhile isJsWs = [] := by
      apply takeWhile_eq_nil_of_head
      intro c hc
      cases hcr : core.reverse with
      | nil => exact absurd (by simpa using hcr) hne
      | cons a t =>
        rw [hcr] at hc
        obtain rfl : a = c := by simpa using hc
        apply hl
        rw [List.getLast?_eq_head?_reverse, hcr]
        rfl
    simp [h0]
  have h2 : (L ++ core ++ T).reverse = T.reverse ++ (core.reverse ++ L.reverse) := by
    simp [List.reverse_append]
  unfold trailWs
  rw [h2, h1, List.reverse_reverse]

theorem replaceNodeText_clean {L core T : Str} (newText : Str)
    (hL : ∀ c ∈ L, isJsWs c = true) (hT : ∀ c ∈ T, isJsWs c = true)
    (hh : ∀ c, core.head? = some c → isJsWs c = false)
    (hl : ∀ c, core.getLast? = some c → isJsWs c = false) (hne : core ≠ []) :
    DomTranslator.replaceNodeText (L ++ core ++ T) newText = L ++ newText ++ T := by
  unfold DomTranslator.replaceNodeText
  rw [leadWs_of_clean hL hh hne, trailWs_of_clean hT hl hne]

theorem dropWhile_eq_trim_append (S : Str) :
    S.dropWhile isJsWs
      = trimStr S ++ ((S.dropWhile isJsWs).reverse.takeWhile isJsWs).reverse := by
  conv_lhs => rw [← List.reverse_reverse (S.dropWhile isJsWs),
    ← List.takeWhile_append_dropWhile isJsWs (S.dropWhile isJsWs).reverse]
  rw [List.reverse_append]
  rfl

theorem trim_decomp (S : Str) :
    ∃ L T, S = L ++ trimStr S ++ T ∧ (∀ c ∈ L, isJsWs c = true) ∧
      (∀ c ∈ T, isJsWs c = true) := by
  refine ⟨S.takeWhile isJsWs, ((S.dropWhile isJsWs).reverse.takeWhile isJsWs).reverse,
    ?_, fun c hc => List.mem_takeWhile_imp hc,
    fun c hc => List.mem_takeWhile_imp (by simpa using hc)⟩
  conv_lhs => rw [← List.takeWhile_append_dropWhile isJsWs S]
  rw [List.append_assoc]
  congr 1
  exact dropWhile_eq_trim_append S

theorem trimStr_head {S : Str} {c : Char} (h : (trimStr S).head? = some c) :
    isJsWs c = false := by
  have hne : trimStr S ≠ [] := by
    intro e
    rw [e] at h
    simp at h
  have h2 : (S.dropWhile isJsWs).head? = some c := by
    rw [dropWhile_eq_trim_append S]
    cases ht : trimStr S with
    | nil => exact absurd ht hne
    | cons a t =>
      rw [ht] at h
      obtain rfl : a = c := by simpa using h
      rfl
  exact head?_dropWhile_ws h2

theorem trimStr_last {S : Str} {c : Char} (h : (trimStr S).getLast? = some c) :
    isJsWs c = false := by
  rw [List.getLast?_eq_head?_reverse] at h
  have e : (trimStr S).reverse = (S.dropWhile isJsWs).reverse.dropWhile isJsWs := by
    simp [trimStr]
  rw [e] at h
  exact head?_dropWhile_ws h

/-! ## `DomTranslator` basic lemmas -/

theorem Dom.text_setText_self (d : Dom) (n : Nat) (s : Str) :
    (d.setText n s).text n = s := by
  simp [Dom.setText]

theorem Dom.attached_setText (d : Dom) (n : Nat) (s : Str) (m : Nat) :
    (d.setText n s).attached m = d.attached m := rfl

theorem foldl_applyStep_skip (l : List (TextNodeInfo × Option TranslatedText))
    (acc : Dom × TranslatorState)
    (h : ∀ p ∈ l, ∀ tr : TranslatedText, p.2 = some tr → tr.original = tr.translated) :
    l.foldl DomTranslator.applyStep acc = acc := by
  induction l generalizing acc with
  | nil => rfl
  | cons p t ih =>
    have hstep : DomTranslator.applyStep acc p = acc := by
      cases hp : p.2 with
      | none => simp [DomTranslator.applyStep, hp]
      | some tr =>
        simp [DomTranslator.applyStep, hp, h p (List.mem_cons_self p t) tr hp]
    rw [List.foldl_cons, hstep]
    exact ih acc (fun q hq => h q (List.mem_cons_of_mem p hq))

theorem foldl_applyStep_preserves (l : List (TextNodeInfo × Option TranslatedText))
    (acc : Dom × TranslatorState)
    (hacc : ∀ r ∈ acc.2.translations, r.original ≠ r.translated)
    (hmatch : ∀ p ∈ l, ∀ tr : TranslatedText, p.2 = some tr →
      tr.original = p.1.originalText) :
    ∀ r ∈ (l.foldl DomTranslator.applyStep acc).2.translations,
      r.original ≠ r.translated := by
  induction l generalizing acc with
  | nil => exact hacc
  | cons p t ih =>
    rw [List.foldl_cons]
    apply ih
    · cases hp : p.2 with
      | none => simpa [DomTranslator.applyStep, hp] using hacc
      | some tr =>
        by_cases he : tr.original = tr.translated
        · simpa [DomTranslator.applyStep, hp, he] using hacc
        · intro r hr
          simp only [DomTranslator.applyStep, hp] at hr
          rw [if_neg he] at hr
          simp only [List.mem_append, List.mem_singleton] at hr
          rcases hr with hr | hr
          · exact hacc r hr
          · subst hr
            show ¬(p.1.originalText = tr.translated)
            rw [← hmatch p (List.mem_cons_self p t) tr hp]
            exact he
    · exact fun q hq => hmatch q (List.mem_cons_of_mem p hq)

/-! ## Claims C1, C2, C3, C7, C8 -/

/-- C1, counterexample: a length-matched call in which the only pair has
`translated === original` appends no restoration record, yet
`applyTranslations` still sets `isTranslated` to `true` (the claim says
the flag stays `false`). -/
theorem c1_noop_counterexample :
    (DomTranslator.applyTranslations domAB st0 [⟨0, ['a']⟩]
      [some ⟨['a'], ['a']⟩]).2 = ⟨[], true⟩ := by
  rfl

/-- C1 (amended): when all pairs are no-ops (`translated === original`),
`applyTranslations` appends zero restoration records and leaves every
node's text unchanged, but it sets `isTranslated` to `true` anyway — the
flag is set after any length-matched call, whether or not a substitution
occurred. -/
theorem c1_noop_amended (dom : Dom) (st : TranslatorState)
    (ns : List TextNodeInfo) (ts : List (Option TranslatedText))
    (hlen : ns.length = ts.length)
    (hnoop : ∀ tr : TranslatedText, some tr ∈ ts → tr.original = tr.translated) :
    (DomTranslator.applyTranslations dom st ns ts).1 = dom ∧
    (DomTranslator.applyTranslations dom st ns ts).2.translations
      = st.translations ∧
    (DomTranslator.applyTranslations dom st ns ts).2.isTranslated = true := by
  have hz : ∀ p ∈ ns.zip ts, ∀ tr : TranslatedText, p.2 = some tr →
      tr.original = tr.translated := by
    intro p hp tr htr
    obtain ⟨_, h2⟩ := List.of_mem_zip (a := p.1) (b := p.2) (by simpa using hp)
    exact hnoop tr (htr ▸ h2)
  unfold DomTranslator.applyTranslations
  rw [if_pos hlen, foldl_applyStep_skip _ _ hz]
  exact ⟨rfl, rfl, rfl⟩

/-- C1 witness: the amended statement at the concrete no-op call. -/
theorem c1_noop_amended_witness :
    (DomTranslator.applyTranslations domAB st0 [⟨0, ['a']⟩]
      [some ⟨['a'], ['a']⟩]).1 = domAB ∧
    (DomTranslator.applyTranslations domAB st0 [⟨0, ['a']⟩]
      [some ⟨['a'], ['a']⟩]).2.translations = st0.translations ∧
    (DomTranslator.applyTranslations domAB st0 [⟨0, ['a']⟩]
      [some ⟨['a'], ['a']⟩]).2.isTranslated = true :=
  c1_noop_amended domAB st0 _ _ rfl
    (by
      intro tr h
      simp only [List.mem_singleton, Option.some.injEq] at h
      subst h
      rfl)

/-- C2, counterexample: node 0 holds `"ab"`; it is translated to `" x"`
(a translation with a leading space) and then restored while attached.
The final content is `" ab"`, not the pre-translation `"ab"`: the
round-trip is not exact when the translated string carries leading or
trailing whitespace of its own. -/
theorem c2_roundtrip_counterexample :
    (DomTranslator.restoreOriginal
      (DomTranslator.applyTranslations domAB st0 [⟨0, ['a', 'b']⟩]
        [some ⟨['a', 'b'], [' ', 'x']⟩])).1.text 0 = [' ', 'a', 'b'] ∧
    ([' ', 'a', 'b'] : Str) ≠ ['a', 'b'] := by
  exact ⟨rfl, by decide⟩

/-- C2 (amended): for a node whose pre-translation content has at least
one non-whitespace character, translated by `applyTranslations` (with the
extractor's trimmed snapshot as `originalText`) and restored by
`restoreOriginal` while attached, the round-trip restores the exact
pre-translation content — provided the translated string is non-empty and
neither starts nor ends with whitespace. -/
theorem c2_roundtrip_amended (d : Dom) (n : Nat) (orig tr : Str)
    (hatt : d.attached n = true)
    (h1 : trimStr (d.text n) ≠ [])
    (h2 : tr ≠ [])
    (h3 : ∀ c, tr.head? = some c → isJsWs c = false)
    (h4 : ∀ c, tr.getLast? = some c → isJsWs c = false) :
    (DomTranslator.restoreOriginal
      (DomTranslator.applyTranslations d st0 [⟨n, trimStr (d.text n)⟩]
        [some ⟨orig, tr⟩])).1.text n = d.text n := by
  obtain ⟨L, T, hS, hL, hT⟩ := trim_decomp (d.text n)
  by_cases he : orig = tr
  · simp [DomTranslator.applyTranslations, DomTranslator.applyStep, st0, he,
      DomTranslator.restoreOriginal]
  · have happly : DomTranslator.applyTranslations d st0 [⟨n, trimStr (d.text n)⟩]
        [some ⟨orig, tr⟩]
        = (d.setText n (DomTranslator.replaceNodeText (d.text n) tr),
           ⟨[⟨n, trimStr (d.text n), tr⟩], true⟩) := by
      simp [DomTranslator.applyTranslations, DomTranslator.applyStep, st0, he]
    rw [happly]
    have hrepl1 : DomTranslator.replaceNodeText (d.text n) tr = L ++ tr ++ T := by
      conv_lhs => rw [hS]
      exact replaceNodeText_clean tr hL hT (fun c hc => trimStr_head hc)
        (fun c hc => trimStr_last hc) h1
    have hrepl2 : DomTranslator.replaceNodeText (L ++ tr ++ T) (trimStr (d.text n))
        = L ++ trimStr (d.text n) ++ T :=
      replaceNodeText_clean (trimStr (d.text n)) hL hT h3 h4 h2
    rw [hrepl1]
    simp only [DomTranslator.restoreOriginal, DomTranslator.restoreStep,
      List.foldl_cons, List.foldl_nil, Dom.attached_setText, hatt,
      Dom.text_setText_self, hrepl2, if_pos, if_true]
    exact hS.symm

/-- C2 witness: the amended round-trip at the concrete node `" ab "`
translated to `"x"`. -/
theorem c2_roundtrip_amended_witness :
    (DomTranslator.restoreOriginal
      (DomTranslator.applyTranslations domPadded st0
        [⟨0, trimStr (domPadded.text 0)⟩]
        [some ⟨['a', 'b'], ['x']⟩])).1.text 0 = domPadded.text 0 :=
  c2_roundtrip_amended domPadded 0 ['a', 'b'] ['x'] rfl (by decide) (by decide)
    (by
      intro c hc
      obtain rfl : 'x' = c := by simpa using hc
      decide)
    (by
      intro c hc
      obtain rfl : 'x' = c := by simpa using hc
      decide)

/-- C3: `restoreOriginal` is idempotent — a second call in succession
changes nothing; after a call on a translated state, the undo log is
empty and the flag is reset; and a detached record is skipped (the
per-record step leaves the DOM untouched) rather than an error. -/
theorem c3_restore_idempotent :
    (∀ x : Dom × TranslatorState,
      DomTranslator.restoreOriginal (DomTranslator.restoreOriginal x)
        = DomTranslator.restoreOriginal x) ∧
    (∀ x : Dom × TranslatorState, x.2.isTranslated = true →
      (DomTranslator.restoreOriginal x).2 = ⟨[], false⟩) ∧
    (∀ (d : Dom) (r : TranslationRecord), d.attached r.node = false →
      DomTranslator.restoreStep d r = d) := by
  refine ⟨?_, ?_, ?_⟩
  · intro x
    by_cases h : x.2.isTranslated = true
    · simp [DomTranslator.restoreOriginal, h]
    · simp [DomTranslator.restoreOriginal, h]
  · intro x h
    simp [DomTranslator.restoreOriginal, h]
  · intro d r h
    simp [DomTranslator.restoreStep, h]

/-- C3 witness: idempotence and the cleared state at a concrete
translated state. -/
theorem c3_restore_idempotent_witness :
    DomTranslator.restoreOriginal (DomTranslator.restoreOriginal
      (domAB, ⟨[⟨0, ['a'], ['b']⟩], true⟩))
      = DomTranslator.restoreOriginal (domAB, ⟨[⟨0, ['a'], ['b']⟩], true⟩) ∧
    (DomTranslator.restoreOriginal
      (domAB, ⟨[⟨0, ['a'], ['b']⟩], true⟩)).2 = ⟨[], false⟩ :=
  ⟨c3_restore_idempotent.1 _, c3_restore_idempotent.2.1 _ rfl⟩

/-- C7: a call with `nodes.length !== translations.length` is a complete
no-op — the DOM and the whole translator state are returned unchanged. -/
theorem c7_length_mismatch (dom : Dom) (st : TranslatorState)
    (ns : List TextNodeInfo) (ts : List (Option TranslatedText))
    (h : ns.length ≠ ts.length) :
    DomTranslator.applyTranslations dom st ns ts = (dom, st) := by
  simp [DomTranslator.applyTranslations, h]

/-- C7 witness: the guard at a concrete desynchronized batch. -/
theorem c7_length_mismatch_witness :
    DomTranslator.applyTranslations domAB st0 []
      [some ⟨['a'], ['b']⟩] = (domAB, st0) :=
  c7_length_mismatch domAB st0 _ _ (by decide)

/-- C8, counterexample: with a node snapshot `originalText = "a"` and a
backend pair `{original: "b", translated: "a"}`, the guard compares the
backend's `original` with `translated` but records the snapshot, so a
record with `original === translated` is pushed — the claimed invariant
fails when the backend's reported original differs from the snapshot. -/
theorem c8_invariant_counterexample :
    (DomTranslator.applyTranslations domAB st0 [⟨0, ['a']⟩]
      [some ⟨['b'], ['a']⟩]).2.translations = [⟨0, ['a'], ['a']⟩] ∧
    (⟨0, ['a'], ['a']⟩ : TranslationRecord).original
      = (⟨0, ['a'], ['a']⟩ : TranslationRecord).translated := by
  exact ⟨rfl, rfl⟩

/-- C8 (amended): the undo log never holds a record with
`original === translated` provided every translation's reported
`original` equals the paired node's snapshot `originalText`; under that
condition `applyTranslations` preserves the invariant, and
`restoreOriginal` and `clear` always do. -/
theorem c8_invariant_amended :
    (∀ (dom : Dom) (st : TranslatorState) (ns : List TextNodeInfo)
        (ts : List (Option TranslatedText)),
      (∀ r ∈ st.translations, r.original ≠ r.translated) →
      (∀ p ∈ ns.zip ts, ∀ tr : TranslatedText, p.2 = some tr →
        tr.original = p.1.originalText) →
      ∀ r ∈ (DomTranslator.applyTranslations dom st ns ts).2.translations,
        r.original ≠ r.translated) ∧
    (∀ x : Dom × TranslatorState,
      (∀ r ∈ x.2.translations, r.original ≠ r.translated) →
      ∀ r ∈ (DomTranslator.restoreOriginal x).2.translations,
        r.original ≠ r.translated) ∧
    (∀ st : TranslatorState,
      ∀ r ∈ (DomTranslator.clear st).translations, r.original ≠ r.translated) := by
  refine ⟨?_, ?_, ?_⟩
  · intro dom st ns ts hst hmatch
    unfold DomTranslator.applyTranslations
    by_cases hlen : ns.length = ts.length
    · rw [if_pos hlen]
      exact foldl_applyStep_preserves _ _ hst hmatch
    · rw [if_neg hlen]
      exact hst
  · intro x hx
    unfold DomTranslator.restoreOriginal
    by_cases h : x.2.isTranslated = true
    · simp [h]
    · simp only [h]
      simpa using hx
  · intro st r hr
    simp [DomTranslator.clear] at hr

/-! ## Association-list lemmas for the JS `Map` model -/

theorem alGet_eq_none_of_not_mem {k : Str} :
    ∀ {l : Cache}, k ∉ l.map Prod.fst → alGet k l = none := by
  intro l
  induction l with
  | nil => intro _; rfl
  | cons hd tl ih =>
    obtain ⟨k1, e⟩ := hd
    intro h
    simp only [List.map_cons, List.mem_cons] at h
    push_neg at h
    simp only [alGet, if_neg (Ne.symm h.1)]
    exact ih h.2

theorem alGet_of_mem_nodup {k : Str} {v : CacheEntry} :
    ∀ {l : Cache}, (l.map Prod.fst).Nodup → (k, v) ∈ l → alGet k l = some v := by
  intro l
  induction l with
  | nil => intro _ h; simp at h
  | cons hd tl ih =>
    obtain ⟨k1, e⟩ := hd
    intro hnd hm
    simp only [List.map_cons, List.nodup_cons] at hnd
    rcases List.mem_cons.mp hm with h | h
    · injection h with h1 h2
      subst h1
      subst h2
      simp [alGet]
    · have hk1 : k1 ≠ k := by
        intro hk
        subst hk
        exact hnd.1 (List.mem_map_of_mem Prod.fst h)
      simp only [alGet, if_neg hk1]
      exact ih hnd.2 h

theorem alSet_of_not_mem {k : Str} (v : CacheEntry) :
    ∀ {l : Cache}, k ∉ l.map Prod.fst → alSet k v l = l ++ [(k, v)] := by
  intro l
  induction l with
  | nil => intro _; rfl
  | cons hd tl ih =>
    obtain ⟨k1, e⟩ := hd
    intro h
    simp only [List.map_cons, List.mem_cons] at h
    push_neg at h
    simp only [alSet, if_neg (Ne.symm h.1), List.cons_append, List.cons.injEq, true_and]
    exact ih h.2

theorem alGet_alDel_of_ne {k k1 : Str} (h : k1 ≠ k) :
    ∀ (l : Cache), alGet k1 (alDel k l) = alGet k1 l := by
  intro l
  induction l with
  | nil => rfl
  | cons hd tl ih =>
    obtain ⟨k2, e⟩ := hd
    by_cases h2 : k2 = k
    · subst h2
      simp [alDel, alGet, Ne.symm h]
    · simp only [alDel, if_neg h2, alGet]
      by_cases h3 : k2 = k1
      · simp only [if_pos h3]
      · simp only [if_neg h3]
        exact ih

/-! ## `generateKey` lemmas -/

theorem generateKey_inj {src tgt t1 t2 : Str}
    (h : TranslationCache.generateKey t1 src tgt
      = TranslationCache.generateKey t2 src tgt) : t1 = t2 := by
  unfold TranslationCache.generateKey at h
  have h1 := List.append_cancel_left h
  simp only [List.cons.injEq, true_and] at h1
  have h2 := List.append_cancel_left h1
  simpa using h2

theorem generateKey_ne_nil (t src tgt : Str) :
    TranslationCache.generateKey t src tgt ≠ [] := by
  unfold TranslationCache.generateKey
  cases src <;> simp

/-! ## The `evictOldest` scan -/

theorem scan_const {τ : Int} :
    ∀ (l : Cache) (k : Str), (∀ e ∈ l, ¬(e.2.timestamp < τ)) →
      l.foldl TranslationCache.scanStep (some k, some τ) = (some k, some τ) := by
  intro l
  induction l with
  | nil => intro _ _; rfl
  | cons hd tl ih =>
    intro k h
    rw [List.foldl_cons]
    have hstep : TranslationCache.scanStep (some k, some τ) hd = (some k, some τ) := by
      simp [TranslationCache.scanStep, if_neg (h hd (List.mem_cons_self hd tl))]
    rw [hstep]
    exact ih k (fun e he => h e (List.mem_cons_of_mem hd he))

theorem scan_min_from :
    ∀ (l : Cache) (k0 : Str) (τ0 : Int) (m : Str × CacheEntry), m ∈ l →
      (∀ e ∈ l, e ≠ m → m.2.timestamp < e.2.timestamp) →
      m.2.timestamp < τ0 →
      l.foldl TranslationCache.scanStep (some k0, some τ0)
        = (some m.1, some m.2.timestamp) := by
  intro l
  induction l with
  | nil => intro _ _ _ h; simp at h
  | cons hd tl ih =>
    intro k0 τ0 m hm hmin hlt
    rw [List.foldl_cons]
    by_cases hem : hd = m
    · subst hem
      have hstep : TranslationCache.scanStep (some k0, some τ0) hd
          = (some hd.1, some hd.2.timestamp) := by
        simp [TranslationCache.scanStep, if_pos hlt]
      rw [hstep]
      apply scan_const
      intro e he
      by_cases h2 : e = hd
      · subst h2; exact lt_irrefl _
      · exact lt_asymm (hmin e (List.mem_cons_of_mem hd he) h2)
    · have hmt : m ∈ tl := by
        rcases List.mem_cons.mp hm with h | h
        · exact absurd h.symm hem
        · exact h
      have hlt2 : m.2.timestamp < hd.2.timestamp :=
        hmin hd (List.mem_cons_self hd tl) hem
      by_cases hc : hd.2.timestamp < τ0
      · have hstep : TranslationCache.scanStep (some k0, some τ0) hd
            = (some hd.1, some hd.2.timestamp) := by
          simp [TranslationCache.scanStep, if_pos hc]
        rw [hstep]
        exact ih hd.1 hd.2.timestamp m hmt
          (fun e he h2 => hmin e (List.mem_cons_of_mem hd he) h2) hlt2
      · have hstep : TranslationCache.scanStep (some k0, some τ0) hd
            = (some k0, some τ0) := by
          simp [TranslationCache.scanStep, if_neg hc]
        rw [hstep]
        exact ih k0 τ0 m hmt
          (fun e he h2 => hmin e (List.mem_cons_of_mem hd he) h2) hlt

theorem scan_min (l : Cache) (m : Str × CacheEntry) (hm : m ∈ l)
    (hmin : ∀ e ∈ l, e ≠ m → m.2.timestamp < e.2.timestamp) :
    l.foldl TranslationCache.scanStep (none, none)
      = (some m.1, some m.2.timestamp) := by
  cases l with
  | nil => simp at hm
  | cons hd tl =>
    rw [List.foldl_cons]
    have hstep : TranslationCache.scanStep (none, none) hd
        = (some hd.1, some hd.2.timestamp) := rfl
    rw [hstep]
    by_cases hem : hd = m
    · subst hem
      apply scan_const
      intro e he
      by_cases h2 : e = hd
      · subst h2; exact lt_irrefl _
      · exact lt_asymm (hmin e (List.mem_cons_of_mem hd he) h2)
    · have hmt : m ∈ tl := by
        rcases List.mem_cons.mp hm with h | h
        · exact absurd h.symm hem
        · exact h
      exact scan_min_from tl hd.1 hd.2.timestamp m hmt
        (fun e he h2 => hmin e (List.mem_cons_of_mem hd he) h2)
        (hmin hd (List.mem_cons_self hd tl) hem)

theorem evictOldest_eq_alDel (c : Cache) (m : Str × CacheEntry) (hm : m ∈ c)
    (hmin : ∀ e ∈ c, e ≠ m → m.2.timestamp < e.2.timestamp) (hk : m.1 ≠ []) :
    TranslationCache.evictOldest c = alDel m.1 c := by
  unfold TranslationCache.evictOldest
  rw [scan_min c m hm hmin]
  simp [hk]

/-! ## The under-capacity build phase of `set` -/

theorem foldl_set_fresh (src tgt : Str) :
    ∀ (items : List (Str × Str × Int)) (c : Cache),
      c.length + items.length ≤ TranslationCache.maxSize →
      (∀ it ∈ items, TranslationCache.generateKey it.1 src tgt ∉ c.map Prod.fst) →
      (items.map fun it => TranslationCache.generateKey it.1 src tgt).Nodup →
      items.foldl (fun c2 it => TranslationCache.set c2 it.1 it.2.1 src tgt it.2.2) c
        = c ++ items.map
            (fun it => (TranslationCache.generateKey it.1 src tgt,
              (⟨it.2.1, it.2.2⟩ : CacheEntry))) := by
  intro items
  induction items with
  | nil => intro c _ _ _; simp
  | cons it rest ih =>
    intro c hlen hfresh hnodup
    rw [List.foldl_cons]
    have hcap : ¬ TranslationCache.maxSize ≤ c.length := by
      simp only [List.length_cons] at hlen
      omega
    have hset : TranslationCache.set c it.1 it.2.1 src tgt it.2.2
        = c ++ [(TranslationCache.generateKey it.1 src tgt,
            (⟨it.2.1, it.2.2⟩ : CacheEntry))] := by
      unfold TranslationCache.set
      rw [if_neg hcap]
      exact alSet_of_not_mem _ (hfresh it (List.mem_cons_self it rest))
    rw [hset]
    simp only [List.map_cons, List.nodup_cons] at hnodup
    have hfresh2 : ∀ it2 ∈ rest, TranslationCache.generateKey it2.1 src tgt
        ∉ (c ++ [(TranslationCache.generateKey it.1 src tgt,
            (⟨it.2.1, it.2.2⟩ : CacheEntry))]).map Prod.fst := by
      intro it2 h2
      simp only [List.map_append, List.map_cons, List.map_nil, List.mem_append,
        List.mem_singleton]
      push_neg
      refine ⟨hfresh it2 (List.mem_cons_of_mem it h2), ?_⟩
      intro he
      exact hnodup.1 (he ▸ List.mem_map_of_mem
        (fun it3 => TranslationCache.generateKey it3.1 src tgt) h2)
    have hlen2 : (c ++ [(TranslationCache.generateKey it.1 src tgt,
        (⟨it.2.1, it.2.2⟩ : CacheEntry))]).length + rest.length
        ≤ TranslationCache.maxSize := by
      simp only [List.length_append, List.length_cons, List.length_nil] at hlen ⊢
      omega
    rw [ih _ hlen2 hfresh2 hnodup.2]
    simp

/-! ## Partition structure of `getMultiple` -/

theorem partition_step_uncached (t : Str) (ts : List Str) (i : Nat)
    (C U : List (Nat × Str))
    (hA : ∀ p ∈ C, i + 1 ≤ p.1 ∧ p.1 < i + 1 + ts.length)
    (hB : ∀ p ∈ U, i + 1 ≤ p.1 ∧ p.1 < i + 1 + ts.length)
    (hC : ∀ j, i + 1 ≤ j → j < i + 1 + ts.length →
      ((∃ v, (j, v) ∈ C) ↔ ¬ ∃ u, (j, u) ∈ U))
    (hD : List.Pairwise (fun a b => a.1 < b.1) C)
    (hE : List.Pairwise (fun a b => a.1 < b.1) U)
    (hF : ∀ p ∈ U, ts[p.1 - (i + 1)]? = some p.2) :
    (∀ p ∈ C, i ≤ p.1 ∧ p.1 < i + (t :: ts).length) ∧
    (∀ p ∈ (i, t) :: U, i ≤ p.1 ∧ p.1 < i + (t :: ts).length) ∧
    (∀ j, i ≤ j → j < i + (t :: ts).length →
      ((∃ v, (j, v) ∈ C) ↔ ¬ ∃ u, (j, u) ∈ (i, t) :: U)) ∧
    List.Pairwise (fun a b => a.1 < b.1) C ∧
    List.Pairwise (fun a b => a.1 < b.1) ((i, t) :: U) ∧
    (∀ p ∈ (i, t) :: U, (t :: ts)[p.1 - i]? = some p.2) := by
  refine ⟨?_, ?_, ?_, hD, ?_, ?_⟩
  · intro p hp
    have h := hA p hp
    simp only [List.length_cons]
    omega
  · intro p hp
    simp only [List.length_cons]
    rcases List.mem_cons.mp hp with h | h
    · subst h
      show i ≤ i ∧ i < i + (ts.length + 1)
      omega
    · have h2 := hB p h
      omega
  · intro j h1 h2
    simp only [List.length_cons] at h2
    by_cases hj : j = i
    · subst hj
      constructor
      · rintro ⟨v, hv⟩
        have hb : j + 1 ≤ j := (hA (j, v) hv).1
        omega
      · intro hno
        exact ((hno ⟨t, List.mem_cons_self (j, t) U⟩).elim)
    · have he : (∃ u, (j, u) ∈ (i, t) :: U) ↔ (∃ u, (j, u) ∈ U) := by
        constructor
        · rintro ⟨u, hu⟩
          rcases List.mem_cons.mp hu with h | h
          · exact absurd (congrArg Prod.fst h) hj
          · exact ⟨u, h⟩
        · rintro ⟨u, hu⟩
          exact ⟨u, List.mem_cons_of_mem _ hu⟩
      rw [hC j (by omega) (by omega), he]
  · refine List.pairwise_cons.mpr ⟨?_, hE⟩
    intro p hp
    have hb := (hB p hp).1
    show i < p.1
    omega
  · intro p hp
    rcases List.mem_cons.mp hp with h | h
    · subst h
      show (t :: ts)[i - i]? = some t
      simp [Nat.sub_self]
    · have hb := (hB p h).1
      have he : p.1 - i = (p.1 - (i + 1)) + 1 := by omega
      rw [he, List.getElem?_cons_succ]
      exact hF p h

theorem partition_step_cached (t v : Str) (ts : List Str) (i : Nat)
    (C U : List (Nat × Str))
    (hA : ∀ p ∈ C, i + 1 ≤ p.1 ∧ p.1 < i + 1 + ts.length)
    (hB : ∀ p ∈ U, i + 1 ≤ p.1 ∧ p.1 < i + 1 + ts.length)
    (hC : ∀ j, i + 1 ≤ j → j < i + 1 + ts.length →
      ((∃ w, (j, w) ∈ C) ↔ ¬ ∃ u, (j, u) ∈ U))
    (hD : List.Pairwise (fun a b => a.1 < b.1) C)
    (hE : List.Pairwise (fun a b => a.1 < b.1) U)
    (hF : ∀ p ∈ U, ts[p.1 - (i + 1)]? = some p.2) :
    (∀ p ∈ (i, v) :: C, i ≤ p.1 ∧ p.1 < i + (t :: ts).length) ∧
    (∀ p ∈ U, i ≤ p.1 ∧ p.1 < i + (t :: ts).length) ∧
    (∀ j, i ≤ j → j < i + (t :: ts).length →
      ((∃ w, (j, w) ∈ (i, v) :: C) ↔ ¬ ∃ u, (j, u) ∈ U)) ∧
    List.Pairwise (fun a b => a.1 < b.1) ((i, v) :: C) ∧
    List.Pairwise (fun a b => a.1 < b.1) U ∧
    (∀ p ∈ U, (t :: ts)[p.1 - i]? = some p.2) := by
  refine ⟨?_, ?_, ?_, ?_, hE, ?_⟩
  · intro p hp
    simp only [List.length_cons]
    rcases List.mem_cons.mp hp with h | h
    · subst h
      show i ≤ i ∧ i < i + (ts.length + 1)
      omega
    · have h2 := hA p h
      omega
  · intro p hp
    have h := hB p hp
    simp only [List.length_cons]
    omega
  · intro j h1 h2
    simp only [List.length_cons] at h2
    by_cases hj : j = i
    · subst hj
      constructor
      · rintro ⟨w, hw⟩
        rintro ⟨u, hu⟩
        have hb : j + 1 ≤ j := (hB (j, u) hu).1
        omega
      · intro _
        exact ⟨v, List.mem_cons_self (j, v) C⟩
    · have he : (∃ w, (j, w) ∈ (i, v) :: C) ↔ (∃ w, (j, w) ∈ C) := by
        constructor
        · rintro ⟨w, hw⟩
          rcases List.mem_cons.mp hw with h | h
          · exact absurd (congrArg Prod.fst h) hj
          · exact ⟨w, h⟩
        · rintro ⟨w, hw⟩
          exact ⟨w, List.mem_cons_of_mem _ hw⟩
      rw [he, hC j (by omega) (by omega)]
  · refine List.pairwise_cons.mpr ⟨?_, hD⟩
    intro p hp
    have hb := (hA p hp).1
    show i < p.1
    omega
  · intro p hp
    have hb := (hB p hp).1
    have he : p.1 - i = (p.1 - (i + 1)) + 1 := by omega
    rw [he, List.getElem?_cons_succ]
    exact hF p hp

theorem getMultipleAux_spec (src tgt : Str) (now : Int) :
    ∀ (texts : List Str) (c : Cache) (i : Nat),
    (∀ p ∈ (TranslationCache.getMultipleAux src tgt now c texts i).1,
       i ≤ p.1 ∧ p.1 < i + texts.length) ∧
    (∀ p ∈ (TranslationCache.getMultipleAux src tgt now c texts i).2.1,
       i ≤ p.1 ∧ p.1 < i + texts.length) ∧
    (∀ j, i ≤ j → j < i + texts.length →
      ((∃ v, (j, v) ∈ (TranslationCache.getMultipleAux src tgt now c texts i).1) ↔
       ¬ ∃ u, (j, u) ∈ (TranslationCache.getMultipleAux src tgt now c texts i).2.1)) ∧
    List.Pairwise (fun a b => a.1 < b.1)
      (TranslationCache.getMultipleAux src tgt now c texts i).1 ∧
    List.Pairwise (fun a b => a.1 < b.1)
      (TranslationCache.getMultipleAux src tgt now c texts i).2.1 ∧
    (∀ p ∈ (TranslationCache.getMultipleAux src tgt now c texts i).2.1,
       texts[p.1 - i]? = some p.2) := by
  intro texts
  induction texts with
  | nil =>
    intro c i
    refine ⟨by simp [TranslationCache.getMultipleAux],
      by simp [TranslationCache.getMultipleAux], ?_,
      by simp [TranslationCache.getMultipleAux],
      by simp [TranslationCache.getMultipleAux],
      by simp [TranslationCache.getMultipleAux]⟩
    intro j h1 h2
    exact absurd h2 (Nat.not_lt.mpr h1)
  | cons t ts ih =>
    intro c i
    obtain ⟨ihA, ihB, ihC, ihD, ihE, ihF⟩ :=
      ih (TranslationCache.get c t src tgt now).2 (i + 1)
    rcases hget : (TranslationCache.get c t src tgt now).1 with _ | v
    · simp only [TranslationCache.getMultipleAux, hget]
      exact partition_step_uncached t ts i _ _ ihA ihB ihC ihD ihE ihF
    · by_cases hv : v = []
      · subst hv
        simp only [TranslationCache.getMultipleAux, hget, if_pos rfl]
        exact partition_step_uncached t ts i _ _ ihA ihB ihC ihD ihE ihF
      · simp only [TranslationCache.getMultipleAux, hget, if_neg hv]
        exact partition_step_cached t v ts i _ _ ihA ihB ihC ihD ihE ihF

theorem getMultipleAux_cached_ne_nil (src tgt : Str) (now : Int) :
    ∀ (texts : List Str) (c : Cache) (i : Nat),
      ∀ p ∈ (TranslationCache.getMultipleAux src tgt now c texts i).1, p.2 ≠ [] := by
  intro texts
  induction texts with
  | nil =>
    intro c i p hp
    simp [TranslationCache.getMultipleAux] at hp
  | cons t ts ih =>
    intro c i p hp
    rcases hget : (TranslationCache.get c t src tgt now).1 with _ | v
    · simp only [TranslationCache.getMultipleAux, hget] at hp
      exact ih _ _ p hp
    · by_cases hv : v = []
      · subst hv
        simp only [TranslationCache.getMultipleAux, hget, if_pos rfl] at hp
        exact ih _ _ p hp
      · simp only [TranslationCache.getMultipleAux, hget, if_neg hv] at hp
        rcases List.mem_cons.mp hp with h | h
        · subst h
          exact hv
        · exact ih _ _ p h

/-- C8 witness: the preserved invariant at a concrete honest call. -/
theorem c8_invariant_amended_witness :
    ¬ (⟨0, ['a'], ['b']⟩ : TranslationRecord).original
      = (⟨0, ['a'], ['b']⟩ : TranslationRecord).translated :=
  c8_invariant_amended.1 domAB st0 [⟨0, ['a']⟩] [some ⟨['a'], ['b']⟩]
    (by simp [st0])
    (by
      intro p hp tr htr
      simp only [List.zip_cons_cons, List.zip_nil_right, List.mem_singleton] at hp
      subst hp
      simp only [Option.some.injEq] at htr
      subst htr
      rfl)
    ⟨0, ['a'], ['b']⟩ (by decide)

/-- C4: `getMultiple` partitions `[0, n)` exactly: cached and uncached
indices are each below `n`, every index below `n` lies in exactly one of
the two, both lists carry strictly increasing (hence duplicate-free)
indices, and each uncached pair carries the input text at its index. -/
theorem c4_getMultiple_partition (c : Cache) (texts : List Str)
    (src tgt : Str) (now : Int) :
    (∀ p ∈ (TranslationCache.getMultiple c texts src tgt now).1,
       p.1 < texts.length) ∧
    (∀ p ∈ (TranslationCache.getMultiple c texts src tgt now).2.1,
       p.1 < texts.length) ∧
    (∀ j, j < texts.length →
      ((∃ v, (j, v) ∈ (TranslationCache.getMultiple c texts src tgt now).1) ↔
       ¬ ∃ u, (j, u) ∈ (TranslationCache.getMultiple c texts src tgt now).2.1)) ∧
    List.Pairwise (fun a b => a.1 < b.1)
      (TranslationCache.getMultiple c texts src tgt now).1 ∧
    List.Pairwise (fun a b => a.1 < b.1)
      (TranslationCache.getMultiple c texts src tgt now).2.1 ∧
    (∀ p ∈ (TranslationCache.getMultiple c texts src tgt now).2.1,
       texts[p.1]? = some p.2) := by
  unfold TranslationCache.getMultiple
  obtain ⟨hA, hB, hC, hD, hE, hF⟩ := getMultipleAux_spec src tgt now texts c 0
  refine ⟨?_, ?_, ?_, hD, hE, ?_⟩
  · intro p hp
    have h := (hA p hp).2
    omega
  · intro p hp
    have h := (hB p hp).2
    omega
  · intro j hj
    exact hC j (Nat.zero_le j) (by omega)
  · intro p hp
    exact hF p hp

/-- C4 witness: the partition at a one-element batch against a one-entry
cache holding that element. -/
theorem c4_getMultiple_partition_witness :
    (∀ p ∈ (TranslationCache.getMultiple wCacheHit [['h', 'i']] wSrc wTgt 0).1,
       p.1 < 1) ∧
    (∀ p ∈ (TranslationCache.getMultiple wCacheHit [['h', 'i']] wSrc wTgt 0).2.1,
       p.1 < 1) ∧
    (∀ j, j < 1 →
      ((∃ v, (j, v) ∈
          (TranslationCache.getMultiple wCacheHit [['h', 'i']] wSrc wTgt 0).1) ↔
       ¬ ∃ u, (j, u) ∈
          (TranslationCache.getMultiple wCacheHit [['h', 'i']] wSrc wTgt 0).2.1)) ∧
    List.Pairwise (fun a b => a.1 < b.1)
      (TranslationCache.getMultiple wCacheHit [['h', 'i']] wSrc wTgt 0).1 ∧
    List.Pairwise (fun a b => a.1 < b.1)
      (TranslationCache.getMultiple wCacheHit [['h', 'i']] wSrc wTgt 0).2.1 ∧
    (∀ p ∈ (TranslationCache.getMultiple wCacheHit [['h', 'i']] wSrc wTgt 0).2.1,
       ([['h', 'i']] : List Str)[p.1]? = some p.2) :=
  c4_getMultiple_partition wCacheHit [['h', 'i']] wSrc wTgt 0

/-- C10: every value in the cached map returned by `getMultiple` is
non-empty; and for an entry whose stored translation is the empty string,
an unexpired `get` is a hit returning `""`, yet `getMultiple` places the
index in the uncached list (JS truthiness of the empty string). -/
theorem c10_empty_translation_uncached :
    (∀ (c : Cache) (texts : List Str) (src tgt : Str) (now : Int),
      ∀ p ∈ (TranslationCache.getMultiple c texts src tgt now).1, p.2 ≠ []) ∧
    (∀ (c : Cache) (text src tgt : Str) (now T : Int),
      alGet (TranslationCache.generateKey text src tgt) c = some ⟨[], T⟩ →
      now - T ≤ TranslationCache.ttl →
      (TranslationCache.get c text src tgt now).1 = some [] ∧
      (TranslationCache.getMultiple c [text] src tgt now).1 = [] ∧
      (TranslationCache.getMultiple c [text] src tgt now).2.1 = [(0, text)]) := by
  refine ⟨?_, ?_⟩
  · intro c texts src tgt now p hp
    exact getMultipleAux_cached_ne_nil src tgt now texts c 0 p hp
  · intro c text src tgt now T h1 h2
    have hg : TranslationCache.get c text src tgt now = (some [], c) := by
      simp only [TranslationCache.get, h1]
      rw [if_neg (not_lt.mpr h2)]
    refine ⟨by rw [hg], ?_, ?_⟩
    · simp [TranslationCache.getMultiple, TranslationCache.getMultipleAux, hg]
    · simp [TranslationCache.getMultiple, TranslationCache.getMultipleAux, hg]

/-- C10 witness: the empty-string entry at a concrete cache and read. -/
theorem c10_empty_translation_uncached_witness :
    (TranslationCache.get wCacheEmptyVal ['h', 'i'] wSrc wTgt 5).1 = some [] ∧
    (TranslationCache.getMultiple wCacheEmptyVal [['h', 'i']] wSrc wTgt 5).1 = [] ∧
    (TranslationCache.getMultiple wCacheEmptyVal [['h', 'i']] wSrc wTgt 5).2.1
      = [(0, ['h', 'i'])] :=
  c10_empty_translation_uncached.2 wCacheEmptyVal ['h', 'i'] wSrc wTgt 5 0 rfl
    (by decide)

/-- C6: an entry stored with timestamp `T` is a hit (returning the
stored string, cache untouched) at every read time up to and including
`T + ttl − 1`; at any read time strictly past `T + ttl`, `get` misses
and deletes exactly that key; and a `get` never removes any other key
(lazy expiry). -/
theorem c6_ttl_expiry (c : Cache) (text src tgt v : Str) (T now : Int)
    (h : alGet (TranslationCache.generateKey text src tgt) c = some ⟨v, T⟩) :
    (now ≤ T + TranslationCache.ttl - 1 →
      TranslationCache.get c text src tgt now = (some v, c)) ∧
    (T + TranslationCache.ttl < now →
      TranslationCache.get c text src tgt now
        = (none, alDel (TranslationCache.generateKey text src tgt) c)) ∧
    (∀ k, k ≠ TranslationCache.generateKey text src tgt →
      alGet k (TranslationCache.get c text src tgt now).2 = alGet k c) := by
  refine ⟨?_, ?_, ?_⟩
  · intro hle
    simp only [TranslationCache.get, h]
    rw [if_neg (by omega : ¬ TranslationCache.ttl < now - T)]
  · intro hlt
    simp only [TranslationCache.get, h]
    rw [if_pos (by omega : TranslationCache.ttl < now - T)]
  · intro k hk
    simp only [TranslationCache.get, h]
    by_cases hc : TranslationCache.ttl < now - T
    · rw [if_pos hc]
      exact alGet_alDel_of_ne hk c
    · rw [if_neg hc]

/-- C6 witness: hit inside the window and miss-with-delete past it, at a
concrete entry inserted at time 0. -/
theorem c6_ttl_expiry_witness :
    TranslationCache.get wCacheHit ['h', 'i'] wSrc wTgt 5 = (some ['a'], wCacheHit) ∧
    TranslationCache.get wCacheHit ['h', 'i'] wSrc wTgt (TranslationCache.ttl + 1)
      = (none, alDel (TranslationCache.generateKey ['h', 'i'] wSrc wTgt) wCacheHit) :=
  ⟨(c6_ttl_expiry wCacheHit ['h', 'i'] wSrc wTgt ['a'] 0 5 rfl).1 (by decide),
   (c6_ttl_expiry wCacheHit ['h', 'i'] wSrc wTgt ['a'] 0
      (TranslationCache.ttl + 1) rfl).2.1 (by decide)⟩

theorem keys_nodup_of_texts_nodup (src tgt : Str) {items : List (Str × Str × Int)}
    (h : (items.map fun it => it.1).Nodup) :
    (items.map fun it => TranslationCache.generateKey it.1 src tgt).Nodup := by
  have he : (items.map fun it => TranslationCache.generateKey it.1 src tgt)
      = (items.map fun it => it.1).map
          (fun t => TranslationCache.generateKey t src tgt) := by
    rw [List.map_map]
    rfl
  rw [he]
  exact List.Nodup.map (fun a b hab => generateKey_inj hab) h

theorem wItems_length : wItems.length = TranslationCache.maxSize + 1 := by
  simp [wItems]

theorem wItems_texts_nodup : (wItems.map fun it => it.1).Nodup := by
  have he : (wItems.map fun it => it.1)
      = (List.range (TranslationCache.maxSize + 1)).map
          (fun i => List.replicate i 'a') := by
    simp only [wItems, List.map_map]
    rfl
  rw [he]
  refine List.Nodup.map ?_ (List.nodup_range _)
  intro a b hab
  simpa using congrArg List.length hab

theorem wItems_pairwise : wItems.Pairwise (fun a b => a.2.2 < b.2.2) := by
  simp only [wItems]
  rw [List.pairwise_map]
  refine List.Pairwise.imp (fun {a b} h => ?_) (List.pairwise_lt_range _)
  show (a : Int) < (b : Int)
  exact_mod_cast h

theorem wItems_head : wItems.head? = some ([], ['v'], (0 : Int)) := by
  simp only [wItems, List.range_succ_eq_map, List.map_cons, List.head?_cons]
  rfl

/-- C5: `set` at capacity first evicts exactly the entry with the
(unique) globally smallest timestamp and then inserts or overwrites the
given key; consequently, folding 1001 `set`s with distinct texts and
strictly increasing timestamps over the empty cache leaves exactly 1000
entries, the oldest key absent, and every other key retrievable via
`get` within its TTL window. -/
theorem c5_capacity_eviction :
    (∀ (c : Cache) (text translated src tgt : Str) (now : Int)
        (m : Str × CacheEntry),
      c.length = TranslationCache.maxSize →
      m ∈ c →
      (∀ e ∈ c, e ≠ m → m.2.timestamp < e.2.timestamp) →
      m.1 ≠ [] →
      TranslationCache.set c text translated src tgt now
        = alSet (TranslationCache.generateKey text src tgt)
            ⟨translated, now⟩ (alDel m.1 c)) ∧
    (∀ (src tgt : Str) (items : List (Str × Str × Int)) (final : Cache),
      items.length = TranslationCache.maxSize + 1 →
      (items.map fun it => it.1).Nodup →
      items.Pairwise (fun a b => a.2.2 < b.2.2) →
      final = items.foldl
        (fun c2 it => TranslationCache.set c2 it.1 it.2.1 src tgt it.2.2) [] →
      final.length = TranslationCache.maxSize ∧
      (∀ it0, items.head? = some it0 →
        alGet (TranslationCache.generateKey it0.1 src tgt) final = none) ∧
      (∀ it ∈ items.tail, ∀ now : Int, now ≤ it.2.2 + TranslationCache.ttl →
        (TranslationCache.get final it.1 src tgt now).1 = some it.2.1)) := by
  constructor
  · intro c text translated src tgt now m hc hm hmin hk
    unfold TranslationCache.set
    rw [if_pos (le_of_eq hc.symm), evictOldest_eq_alDel c m hm hmin hk]
  · intro src tgt items final hlen hnodup hpair hfinal
    have knodup := keys_nodup_of_texts_nodup src tgt hnodup
    have hne : items ≠ [] := by
      intro e
      rw [e] at hlen
      simp only [List.length_nil] at hlen
      omega
    obtain ⟨I, z, hIz⟩ : ∃ I z, items = I ++ [z] :=
      ⟨items.dropLast, items.getLast hne, (List.dropLast_append_getLast hne).symm⟩
    have hIlen : I.length = TranslationCache.maxSize := by
      rw [hIz] at hlen
      simp only [List.length_append, List.length_cons, List.length_nil] at hlen
      omega
    have hIne : I ≠ [] := by
      intro e
      rw [e] at hIlen
      simp only [List.length_nil, TranslationCache.maxSize] at hIlen
      omega
    obtain ⟨i0, I2, hI⟩ : ∃ i0 I2, I = i0 :: I2 := by
      cases I with
      | nil => exact absurd rfl hIne
      | cons a b => exact ⟨a, b, rfl⟩
    have hpair2 : ∀ b ∈ I2 ++ [z], i0.2.2 < b.2.2 := by
      rw [hIz, hI] at hpair
      simp only [List.cons_append] at hpair
      exact (List.pairwise_cons.mp hpair).1
    have hknodupI : (I.map fun it => TranslationCache.generateKey it.1 src tgt).Nodup := by
      have hsub : I.Sublist items := by
        rw [hIz]
        exact List.sublist_append_left I [z]
      exact List.Nodup.sublist (hsub.map _) knodup
    have hlen0 : ([] : Cache).length + I.length ≤ TranslationCache.maxSize := by
      simp [hIlen]
    have hL0 : I.foldl
        (fun c2 it => TranslationCache.set c2 it.1 it.2.1 src tgt it.2.2) ([] : Cache)
        = I.map (mkCacheItem src tgt) := by
      have h := foldl_set_fresh src tgt I [] hlen0 (by simp) hknodupI
      simpa using h
    have hfinal2 : final = TranslationCache.set (I.map (mkCacheItem src tgt))
        z.1 z.2.1 src tgt z.2.2 := by
      rw [hfinal, hIz, List.foldl_append, hL0]
      rfl
    have hmin : ∀ e ∈ I.map (mkCacheItem src tgt), e ≠ mkCacheItem src tgt i0 →
        (mkCacheItem src tgt i0).2.timestamp < e.2.timestamp := by
      intro e he hne2
      rw [hI] at he
      simp only [List.map_cons, List.mem_cons] at he
      rcases he with he | he
      · exact absurd he hne2
      · obtain ⟨it, hit, rfl⟩ := List.mem_map.mp he
        show i0.2.2 < it.2.2
        exact hpair2 it (List.mem_append_left _ hit)
    have hmem0 : mkCacheItem src tgt i0 ∈ I.map (mkCacheItem src tgt) := by
      rw [hI]
      exact List.mem_cons_self _ _
    have hevict : TranslationCache.evictOldest (I.map (mkCacheItem src tgt))
        = I2.map (mkCacheItem src tgt) := by
      rw [evictOldest_eq_alDel _ (mkCacheItem src tgt i0) hmem0 hmin
        (generateKey_ne_nil _ _ _)]
      rw [hI]
      simp [alDel, mkCacheItem]
    have hcap : TranslationCache.maxSize ≤ (I.map (mkCacheItem src tgt)).length := by
      rw [List.length_map, hIlen]
    have hkeyscons : (items.map fun it => TranslationCache.generateKey it.1 src tgt)
        = TranslationCache.generateKey i0.1 src tgt
          :: (I2 ++ [z]).map (fun it => TranslationCache.generateKey it.1 src tgt) := by
      rw [hIz, hI]
      rfl
    have kn2 := knodup
    rw [hkeyscons] at kn2
    have hzfresh : TranslationCache.generateKey z.1 src tgt
        ∉ (I2.map (mkCacheItem src tgt)).map Prod.fst := by
      intro hmem
      have h2 : ((I2.map fun it => TranslationCache.generateKey it.1 src tgt)
          ++ [TranslationCache.generateKey z.1 src tgt]).Nodup := by
        have h3 := (List.nodup_cons.mp kn2).2
        rw [List.map_append] at h3
        exact h3
      obtain ⟨-, -, hdisj⟩ := List.nodup_append.mp h2
      rw [List.map_map] at hmem
      exact hdisj hmem (List.mem_singleton_self _)
    have hfinal3 : final = I2.map (mkCacheItem src tgt) ++ [mkCacheItem src tgt z] := by
      rw [hfinal2]
      unfold TranslationCache.set
      rw [if_pos hcap, hevict]
      exact alSet_of_not_mem _ hzfresh
    have htail : items.tail = I2 ++ [z] := by
      rw [hIz, hI]
      rfl
    have hfinal4 : final = items.tail.map (mkCacheItem src tgt) := by
      rw [htail, List.map_append, hfinal3]
      rfl
    have hkeysfinal : ((items.tail.map (mkCacheItem src tgt)).map Prod.fst).Nodup := by
      rw [List.map_map, htail]
      exact (List.nodup_cons.mp kn2).2
    refine ⟨?_, ?_, ?_⟩
    · rw [hfinal4, List.length_map, List.length_tail, hlen]
      omega
    · intro it0 hh
      have hit0 : it0 = i0 := by
        rw [hIz, hI] at hh
        simp only [List.cons_append, List.head?_cons, Option.some.injEq] at hh
        exact hh.symm
      subst hit0
      apply alGet_eq_none_of_not_mem
      rw [hfinal4, List.map_map, htail]
      intro hmem
      exact (List.nodup_cons.mp kn2).1 hmem
    · intro it hit now hnow
      have hmem : mkCacheItem src tgt it ∈ items.tail.map (mkCacheItem src tgt) :=
        List.mem_map_of_mem _ hit
      have hget2 : alGet (TranslationCache.generateKey it.1 src tgt) final
          = some ⟨it.2.1, it.2.2⟩ := by
        rw [hfinal4]
        exact alGet_of_mem_nodup hkeysfinal hmem
      simp only [TranslationCache.get, hget2]
      rw [if_neg (by omega : ¬ TranslationCache.ttl < now - it.2.2)]

/-- C5 witness: after the 1001 concrete inserts of `wItems`, the final
cache holds exactly 1000 entries and the oldest key is absent. -/
theorem c5_capacity_eviction_witness :
    wFinal.length = TranslationCache.maxSize ∧
    alGet (TranslationCache.generateKey [] wSrc wTgt) wFinal = none := by
  obtain ⟨h1, h2, h3⟩ := c5_capacity_eviction.2 wSrc wTgt wItems wFinal
    wItems_length wItems_texts_nodup wItems_pairwise rfl
  exact ⟨h1, h2 ([], ['v'], (0 : Int)) wItems_head⟩

/-- C9: `detectLanguage` returns `ko` exactly when the Hangul ratio over
Hangul-plus-Latin characters exceeds 7/10, `en` exactly when it is below
3/10, and `mixed` otherwise (including when there are no such characters
at all); the spec's sample ratios 0.8 / 0.1 / 0.5 classify as
`ko` / `en` / `mixed`; and `isSourceLanguage` holds exactly when the
classification equals the source language or is `mixed`. -/
theorem c9_language_detection :
    (∀ t : Str, TextExtractor.detectLanguage t = Lang.ko ↔
      (0 < TextExtractor.totalChars t ∧ 7 / 10 < TextExtractor.koreanRatio t)) ∧
    (∀ t : Str, TextExtractor.detectLanguage t = Lang.en ↔
      (0 < TextExtractor.totalChars t ∧ TextExtractor.koreanRatio t < 3 / 10)) ∧
    (∀ t : Str, TextExtractor.detectLanguage t = Lang.mixed ↔
      (TextExtractor.totalChars t = 0 ∨
       (3 / 10 ≤ TextExtractor.koreanRatio t ∧
        TextExtractor.koreanRatio t ≤ 7 / 10))) ∧
    TextExtractor.detectLanguage ['가', '나', '다', '라', 'a'] = Lang.ko ∧
    TextExtractor.detectLanguage
      ['가', 'a', 'b', 'c', 'd', 'e', 'f', 'g', 'h', 'i'] = Lang.en ∧
    TextExtractor.detectLanguage ['가', 'a'] = Lang.mixed ∧
    (∀ (t : Str) (s : LanguageCode),
      TextExtractor.isSourceLanguage t s = true ↔
      (TextExtractor.detectLanguage t = s.toLang ∨
       TextExtractor.detectLanguage t = Lang.mixed)) := by
  have hko : ∀ t : Str, TextExtractor.detectLanguage t = Lang.ko ↔
      (0 < TextExtractor.totalChars t ∧ 7 / 10 < TextExtractor.koreanRatio t) := by
    intro t
    unfold TextExtractor.detectLanguage
    split_ifs with h1 h2 h3
    · simp [h1]
    · simp [h2, Nat.pos_of_ne_zero h1]
    · simp [h2]
    · simp [h2]
  have hen : ∀ t : Str, TextExtractor.detectLanguage t = Lang.en ↔
      (0 < TextExtractor.totalChars t ∧ TextExtractor.koreanRatio t < 3 / 10) := by
    intro t
    unfold TextExtractor.detectLanguage
    split_ifs with h1 h2 h3
    · simp [h1]
    · have hno : ¬ (TextExtractor.koreanRatio t < 3 / 10) :=
        not_lt.mpr (le_of_lt (lt_trans (by norm_num) h2))
      simp [hno]
    · simp [Nat.pos_of_ne_zero h1, h3]
    · simp [h3]
  have hmx : ∀ t : Str, TextExtractor.detectLanguage t = Lang.mixed ↔
      (TextExtractor.totalChars t = 0 ∨
       (3 / 10 ≤ TextExtractor.koreanRatio t ∧
        TextExtractor.koreanRatio t ≤ 7 / 10)) := by
    intro t
    unfold TextExtractor.detectLanguage
    split_ifs with h1 h2 h3
    · simp [h1]
    · simp [h1, not_le.mpr h2]
    · simp [h1, not_le.mpr h3]
    · simp [h1, not_lt.mp h2, not_lt.mp h3]
  have hr1 : TextExtractor.koreanRatio ['가', '나', '다', '라', 'a'] = 4 / 5 := by
    unfold TextExtractor.koreanRatio
    norm_num [show TextExtractor.koreanChars ['가', '나', '다', '라', 'a'] = 4 from rfl,
      show TextExtractor.totalChars ['가', '나', '다', '라', 'a'] = 5 from rfl]
  have hr2 : TextExtractor.koreanRatio
      ['가', 'a', 'b', 'c', 'd', 'e', 'f', 'g', 'h', 'i'] = 1 / 10 := by
    unfold TextExtractor.koreanRatio
    norm_num [show TextExtractor.koreanChars
        ['가', 'a', 'b', 'c', 'd', 'e', 'f', 'g', 'h', 'i'] = 1 from rfl,
      show TextExtractor.totalChars
        ['가', 'a', 'b', 'c', 'd', 'e', 'f', 'g', 'h', 'i'] = 10 from rfl]
  have hr3 : TextExtractor.koreanRatio ['가', 'a'] = 1 / 2 := by
    unfold TextExtractor.koreanRatio
    norm_num [show TextExtractor.koreanChars ['가', 'a'] = 1 from rfl,
      show TextExtractor.totalChars ['가', 'a'] = 2 from rfl]
  refine ⟨hko, hen, hmx, ?_, ?_, ?_, ?_⟩
  · exact (hko _).mpr ⟨by decide, by rw [hr1]; norm_num⟩
  · exact (hen _).mpr ⟨by decide, by rw [hr2]; norm_num⟩
  · exact (hmx _).mpr (Or.inr ⟨by rw [hr3]; norm_num, by rw [hr3]; norm_num⟩)
  · intro t s
    unfold TextExtractor.isSourceLanguage
    by_cases h : TextExtractor.detectLanguage t = Lang.mixed
    · simp [h]
    · simp [h]

end Plainly
